import Mathlib

/-!
Verification of the `towl` TODO-comment scanner.

This file gives a shallow embedding of the core of the repository:

* `src/lib/comment/todo.rs` — the `TodoType` enumeration, the keyword-based
  `TryFrom<&str>` classification, and the `TodoComment` record;
* `src/lib/parser/parser.rs` — `Parser::new`, `Parser::parse`,
  `Parser::extract_todo`, `Parser::extract_context`,
  `Parser::find_function_context`;
* `src/lib/scanner/scanner.rs` — `Scanner::should_file_be_scanned` and the
  per-entry behaviour of `Scanner::scan`/`Scanner::scan_file`;
* `src/lib/output/mod.rs` — `Output::new`, `Output::validate_file_extension`,
  `Output::group_todos_by_type`;
* `src/lib/output/formatter/formatters/table.rs` — `TableFormatter::truncate_string`.

Strings are modelled as `List Char` (`Str`), with Rust byte lengths recovered
through `Char.utf8Size`.  Compiled regular expressions are modelled as abstract
match functions `Str → Option Captures`: a successful match carries the text of
group 0 together with its byte offsets and the (optional) texts of the explicit
capture groups, exactly the data the Rust code reads off a `regex::Captures`.
-/

namespace Towl

/-- Strings are modelled as lists of unicode characters. -/
abbrev Str := List Char

/-- Rust `str::trim`: remove leading and trailing whitespace. -/
def trim (s : Str) : Str :=
  ((s.dropWhile Char.isWhitespace).reverse.dropWhile Char.isWhitespace).reverse

/-- Decimal rendering of a natural number, as used by Rust `format!("{}", n)`. -/
def natToStr (n : Nat) : Str := Nat.toDigits 10 n

/-- The closed set of marker types (`TodoType` in `src/lib/comment/todo.rs`). -/
inductive TodoType where
  | Todo
  | Fixme
  | Hack
  | Note
  | Bug
deriving DecidableEq, Repr

/-- Rust `str::contains(needle)`: `needle` occurs contiguously in `hay`. -/
def strContains (hay needle : Str) : Bool :=
  match hay with
  | [] => needle.isEmpty
  | _ :: rest => List.isPrefixOf needle hay || strContains rest needle

/-- `TryFrom<&str> for TodoType`: classify a marker pattern by inspecting its
own source text, uppercased, for keyword substrings in a fixed order.
`none` models the `UnknownTodoType` error. -/
def todoTypeOfStr (s : Str) : Option TodoType :=
  let upper := s.map Char.toUpper
  if strContains upper "TODO".toList then some .Todo
  else if strContains upper "FIXME".toList then some .Fixme
  else if strContains upper "HACK".toList then some .Hack
  else if strContains upper "NOTE".toList then some .Note
  else if strContains upper "BUG".toList then some .Bug
  else none

/-- The data the parser reads off a successful `regex::Captures`:
the text of group 0 (the full match), its byte offsets within the line,
and the optional texts of the explicit capture groups (indices `1..len`). -/
structure Captures where
  group0 : Str
  startPos : Nat
  stopPos : Nat
  groups : List (Option Str)
deriving DecidableEq, Repr

/-- A compiled regex is modelled by its match semantics on a line. -/
abbrev RegexM := Str → Option Captures

/-- `Captures::len`: number of groups including the implicit group 0;
it is fixed by the pattern, independent of which groups participated. -/
def capLen (caps : Captures) : Nat := 1 + caps.groups.length

/-- `Captures::get(i)`: group 0 always participates in a match; explicit
groups may or may not have participated. -/
def capGet (caps : Captures) (i : Nat) : Option Str :=
  if i = 0 then some caps.group0 else caps.groups.getD (i - 1) none

/-- The literal placeholder description. -/
def noDescription : Str := "No description".toList

/-- The `TodoComment` record (`src/lib/comment/todo.rs`). -/
structure TodoComment where
  id : Str
  file_path : Str
  line_number : Nat
  column_start : Nat
  column_end : Nat
  todo_type : TodoType
  original_text : Str
  description : Str
  context_lines : List Str
  function_context : Option Str
deriving DecidableEq, Repr

/-- Split a list at every occurrence of a separator (Rust `split`). -/
def splitOnChar (sep : Char) (s : Str) : List Str := s.splitOn sep

/-- Rust `str::lines` on the file content: split at `'\n'` terminators
(a trailing terminator produces no final empty line) and strip one
trailing `'\r'` from each line. -/
def rustLines (content : Str) : List Str :=
  let parts := splitOnChar '\n' content
  let parts := if parts.getLast? = some [] then parts.dropLast else parts
  parts.map (fun l => if l.getLast? = some '\r' then l.dropLast else l)

/-- Rust `Path::file_name` (then `unwrap_or_default`) on a path string:
the last normal component, or the empty string when there is none
(empty path, trailing `..`). -/
def fileName (p : Str) : Str :=
  let comps := (splitOnChar '/' p).filter (fun c => !c.isEmpty && c ≠ ['.'])
  match comps.getLast? with
  | some c => if c = ['.', '.'] then [] else c
  | none => []

/-! ## Parser (`src/lib/parser/parser.rs`) -/

/-- The configuration fields consumed by the parser
(`ParsingConfig` in `src/lib/config/config.rs`). -/
structure ParsingConfig where
  file_extensions : List Str
  exclude_patterns : List Str
  include_context_lines : Nat
  comment_prefixes : List Str
  todo_patterns : List Str
  function_patterns : List Str

/-- `Parser`: the three compiled pattern families. -/
structure Parser where
  comment_patterns : List RegexM
  patterns : List (RegexM × TodoType)
  function_patterns : List RegexM

/-- The error type of parser construction (`TowlParserError`). -/
inductive TowlParserError where
  | InvalidRegexPattern (pattern : Str)
  | UnknownConfigPattern (pattern : Str)
deriving DecidableEq

/-- The first loop of `Parser::new`: compile each pattern in order,
failing fast on the first invalid one.  `compile` is the (abstract)
regex compiler, `none` modelling `Regex::new` returning `Err`. -/
def compilePatterns (compile : Str → Option RegexM) :
    List Str → Except TowlParserError (List RegexM)
  | [] => .ok []
  | p :: ps =>
    match compile p with
    | none => .error (.InvalidRegexPattern p)
    | some r =>
      match compilePatterns compile ps with
      | .error e => .error e
      | .ok rs => .ok (r :: rs)

/-- The second loop of `Parser::new`: compile each marker pattern and bind
its `TodoType` from the pattern's own source text, failing fast. -/
def compileTodoPatterns (compile : Str → Option RegexM) :
    List Str → Except TowlParserError (List (RegexM × TodoType))
  | [] => .ok []
  | p :: ps =>
    match compile p with
    | none => .error (.InvalidRegexPattern p)
    | some r =>
      match todoTypeOfStr p with
      | none => .error (.UnknownConfigPattern p)
      | some ty =>
        match compileTodoPatterns compile ps with
        | .error e => .error e
        | .ok rs => .ok ((r, ty) :: rs)

/-- `Parser::new`: compile the comment-prefix, marker, and declaration
pattern families; any failure aborts construction. -/
def parserNew (compile : Str → Option RegexM) (config : ParsingConfig) :
    Except TowlParserError Parser :=
  match compilePatterns compile config.comment_prefixes with
  | .error e => .error e
  | .ok comment_patterns =>
    match compileTodoPatterns compile config.todo_patterns with
    | .error e => .error e
    | .ok patterns =>
      match compilePatterns compile config.function_patterns with
      | .error e => .error e
      | .ok function_patterns =>
        .ok ⟨comment_patterns, patterns, function_patterns⟩

/-- The description computation inside `Parser::extract_todo`:
`if captures.len() > 1 { captures.get(1).map(trim) } else
{ captures.get(0).map(trim) }.unwrap_or("No description")`. -/
def descriptionOf (caps : Captures) : Str :=
  (if capLen caps > 1 then (capGet caps 1).map trim
   else (capGet caps 0).map trim).getD noDescription

/-- `Parser::extract_context`: the window `start..end` around
`current_line`, skipping `current_line` itself, each line rendered as
`"{i+1}: {line}"`. -/
def extractContext (lines : List Str) (current_line context_size : Nat) :
    List Str :=
  let start := if current_line ≥ context_size then current_line - context_size else 0
  let stop := min (current_line + context_size + 1) lines.length
  ((List.range' start (stop - start)).filter (fun i => i ≠ current_line)).map
    (fun i => natToStr (i + 1) ++ ':' :: ' ' :: lines.getD i [])

/-- `c.is_alphanumeric() || c == '_'` in `find_function_context`. -/
def isWordChar (c : Char) : Bool := c.isAlphanum || c == '_'

/-- The inner group loop (`for j in 1..captures.len()`) of
`find_function_context`: the first participating group whose text is
non-empty and all word characters. -/
def groupSearch : List (Option Str) → Option Str
  | [] => none
  | none :: rest => groupSearch rest
  | some name :: rest =>
    if !name.isEmpty && name.all isWordChar then some name else groupSearch rest

/-- The pattern loop of `find_function_context` on one line: the first
pattern whose match yields a qualifying group. -/
def patternLineSearch (patterns : List RegexM) (line : Str) : Option Str :=
  patterns.findSome? (fun p =>
    match p line with
    | some caps => groupSearch caps.groups
    | none => none)

/-- The backward line loop of `find_function_context`, from line `i`
down to line 0. -/
def findFnCtxAux (patterns : List RegexM) (lines : List Str) : Nat → Option Str
  | 0 =>
    (patternLineSearch patterns (lines.getD 0 [])).map
      (fun name => name ++ ':' :: natToStr 1)
  | i + 1 =>
    match (patternLineSearch patterns (lines.getD (i + 1) [])).map
        (fun name => name ++ ':' :: natToStr (i + 2)) with
    | some r => some r
    | none => findFnCtxAux patterns lines i

/-- `Parser::find_function_context`: scan lines `current_line, …, 0` and
return `"name:line"` for the first qualifying declaration match. -/
def findFunctionContext (patterns : List RegexM) (lines : List Str)
    (current_line : Nat) : Option Str :=
  findFnCtxAux patterns lines current_line

/-- `Parser::extract_todo`: build one `TodoComment` from a marker match. -/
def extractTodo (P : Parser) (path : Str) (line : Str) (line_number : Nat)
    (caps : Captures) (all_lines : List Str) (todo_type : TodoType) :
    TodoComment :=
  let description := descriptionOf caps
  let match_start := caps.startPos
  let match_end := caps.stopPos
  let context_lines := extractContext all_lines (line_number - 1) 3
  let function_context := findFunctionContext P.function_patterns all_lines (line_number - 1)
  let id := fileName path ++ '_' :: 'L' :: natToStr line_number
    ++ '_' :: 'C' :: natToStr match_start
  { id := id
    file_path := path
    line_number := line_number
    column_start := match_start
    column_end := match_end
    todo_type := todo_type
    original_text := line
    description := description
    context_lines := context_lines
    function_context := function_context }

/-- The comment-prefix test of `Parser::parse`:
`self.comment_patterns.iter().any(|p| p.is_match(line))`. -/
def isCommentLine (P : Parser) (line : Str) : Bool :=
  P.comment_patterns.any (fun r => (r line).isSome)

/-- `Parser::parse`: accumulate records over every line and every marker
pattern (translating the push-loops into left folds). -/
def parse (P : Parser) (path : Str) (content : Str) : List TodoComment :=
  let lines := rustLines content
  lines.enum.foldl
    (fun todos il =>
      if !isCommentLine P il.2 then todos
      else
        P.patterns.foldl
          (fun todos pt =>
            match pt.1 il.2 with
            | some caps =>
              todos ++ [extractTodo P path il.2 (il.1 + 1) caps lines pt.2]
            | none => todos)
          todos)
    []

/-! ## Scanner (`src/lib/scanner/scanner.rs`) -/

/-- Rust `Path::extension` applied to a file name: the portion after the
last `'.'`, provided there is a `'.'` beyond position 0
(`".gitignore"` has no extension, `"foo."` has the empty extension). -/
def rustExtension (name : Str) : Option Str :=
  match splitOnChar '.' name with
  | [] => none
  | [_] => none
  | p0 :: p1 :: rest =>
    match rest with
    | [] => if p0.isEmpty then none else some p1
    | _ :: _ => (p1 :: rest).getLastD []

/-- `path.extension()` on a path string: the extension of its file name. -/
def pathExtension (p : Str) : Option Str :=
  let name := fileName p
  if name.isEmpty then none else rustExtension name

/-- A visited path, with the filesystem fact `is_file` attached. -/
structure SPath where
  pathStr : Str
  is_file : Bool

/-- `Scanner::should_file_be_scanned`: regular file, no `".."` in the
path string, and an extension in the configured allow-list. -/
def should_file_be_scanned (file_extensions : List Str) (p : SPath) : Bool :=
  if !p.is_file then false
  else if strContains p.pathStr ['.', '.'] then false
  else
    match pathExtension p.pathStr with
    | some ext => file_extensions.contains ext
    | none => false

/-- One entry yielded by the directory walk, with the outcomes of the two
filesystem effects `Scanner::scan_file` performs on it: `canonical` is the
result of `path.canonicalize()` (`none` = failure) and `content` the result
of reading the file (`none` = read error). -/
structure WalkEntry where
  path : SPath
  canonical : Option Str
  content : Option Str

/-- `Scanner::scan_file`: reject when canonicalization fails or the
canonical path still contains `".."`; then read and parse.  `none` models
the error cases (which `scan` logs and skips). -/
def scanFileModel (P : Parser) (e : WalkEntry) : Option (List TodoComment) :=
  match e.canonical with
  | none => none
  | some c =>
    if strContains c ['.', '.'] then none
    else
      match e.content with
      | none => none
      | some content => some (parse P e.path.pathStr content)

/-- The per-entry loop body of `Scanner::scan`: skip ineligible entries,
parse eligible ones, and drop (log) per-file failures. -/
def scanModel (P : Parser) (file_extensions : List Str)
    (entries : List WalkEntry) : List TodoComment :=
  entries.foldl
    (fun todos e =>
      if !should_file_be_scanned file_extensions e.path then todos
      else
        match scanFileModel P e with
        | some ts => todos ++ ts
        | none => todos)
    []

/-- The records a single walk entry contributes to `Scanner::scan`. -/
def entryRecords (P : Parser) (file_extensions : List Str) (e : WalkEntry) :
    List TodoComment :=
  if should_file_be_scanned file_extensions e.path then
    (scanFileModel P e).getD []
  else []

/-! ## Output stage (`src/lib/output/mod.rs`) -/

/-- The output formats matched by `Output::new`. -/
inductive OutputFormat where
  | Terminal
  | Table
  | Json
  | Csv
  | Toml
  | Markdown
deriving DecidableEq, Repr

/-- The formatter chosen by `Output::new`. -/
inductive FormatterTag where
  | markdown
  | table
  | json
  | csv
  | toml
deriving DecidableEq, Repr

/-- The writer chosen by `Output::new`. -/
inductive WriterTag where
  | stdout
  | file (path : Str)
deriving DecidableEq, Repr

/-- `TowlOutputError` (`src/lib/output/error.rs`). -/
inductive TowlOutputError where
  | UnableToFormatTodos
  | UnableToWriteTodos
  | InvalidOutputPath (msg : Str)
deriving DecidableEq

/-- `Output::validate_file_extension`: the path's extension must exist and
equal the expected one. -/
def validate_file_extension (path : Str) (expected_ext : Str) :
    Except TowlOutputError Unit :=
  match pathExtension path with
  | some ext =>
    if ext = expected_ext then .ok ()
    else
      .error (.InvalidOutputPath
        ("File extension '".toList ++ ext
          ++ "' does not match expected extension '".toList ++ expected_ext
          ++ "' for this format".toList))
  | none =>
    .error (.InvalidOutputPath
      ("Output file must have '".toList ++ expected_ext ++ "' extension".toList))

/-- `Output::new`: pair each format with its formatter and writer,
enforcing the format/sink compatibility rules first. -/
def outputNew (output_format : OutputFormat) (output_path : Option Str) :
    Except TowlOutputError (FormatterTag × WriterTag) :=
  match output_format with
  | .Terminal =>
    if output_path.isSome then
      .error (.InvalidOutputPath "Terminal format cannot write to file".toList)
    else .ok (.markdown, .stdout)
  | .Table =>
    if output_path.isSome then
      .error (.InvalidOutputPath "Table format cannot write to file".toList)
    else .ok (.table, .stdout)
  | .Json =>
    match output_path with
    | none =>
      .error (.InvalidOutputPath "JSON format requires an output file path".toList)
    | some path =>
      match validate_file_extension path "json".toList with
      | .error e => .error e
      | .ok _ => .ok (.json, .file path)
  | .Csv =>
    match output_path with
    | none =>
      .error (.InvalidOutputPath "CSV format requires an output file path".toList)
    | some path =>
      match validate_file_extension path "csv".toList with
      | .error e => .error e
      | .ok _ => .ok (.csv, .file path)
  | .Toml =>
    match output_path with
    | none =>
      .error (.InvalidOutputPath "TOML format requires an output file path".toList)
    | some path =>
      match validate_file_extension path "toml".toList with
      | .error e => .error e
      | .ok _ => .ok (.toml, .file path)
  | .Markdown =>
    match output_path with
    | none =>
      .error (.InvalidOutputPath "Markdown format requires an output file path".toList)
    | some path =>
      match validate_file_extension path "md".toList with
      | .error e => .error e
      | .ok _ => .ok (.markdown, .file path)

/-- One `entry(..).or_insert_with(Vec::new).push(todo)` step of
`Output::group_todos_by_type`, on an association-list view of the map:
append to the existing group for the record's type, or start a new one. -/
def addTodo (m : List (TodoType × List TodoComment)) (t : TodoComment) :
    List (TodoType × List TodoComment) :=
  match m with
  | [] => [(t.todo_type, [t])]
  | (k, v) :: rest =>
    if k = t.todo_type then (k, v ++ [t]) :: rest
    else (k, v) :: addTodo rest t

/-- `Output::group_todos_by_type`: fold every record into the map. -/
def group_todos_by_type (todos : List TodoComment) :
    List (TodoType × List TodoComment) :=
  todos.foldl addTodo []

/-- Lookup of a type's group in the grouped map (empty if absent). -/
def findGroup (ty : TodoType) : List (TodoType × List TodoComment) → List TodoComment
  | [] => []
  | (k, v) :: rest => if k = ty then v else findGroup ty rest

/-! ## Table formatter (`src/lib/output/formatter/formatters/table.rs`) -/

/-- Rust `str::len`: length in UTF-8 bytes. -/
def byteLen (s : Str) : Nat := (s.map Char.utf8Size).sum

/-- The byte slice `&s[0..k]`: `some` of the first `k` bytes' characters
when `k` falls on a character boundary, `none` when the slice would split
a character or run past the end (a Rust panic). -/
def takeBytes : Str → Nat → Option Str
  | _, 0 => some []
  | [], _ + 1 => none
  | c :: rest, k + 1 =>
    if c.utf8Size ≤ k + 1 then (takeBytes rest (k + 1 - c.utf8Size)).map (c :: ·)
    else none

/-- `TableFormatter::truncate_string`: return the string unchanged when its
byte length fits, else slice off `max_len.saturating_sub(1)` bytes and
append an ellipsis.  `none` models the byte-slice panic. -/
def truncate_string (s : Str) (max_len : Nat) : Option Str :=
  if byteLen s ≤ max_len then some s
  else (takeBytes s (max_len - 1)).map (· ++ ['…'])

/-! ## Derived definitions used in the specifications and witnesses -/

/-- A parser with no configured patterns (used to instantiate record
construction on concrete inputs). -/
def emptyParser : Parser := ⟨[], [], []⟩

/-- A marker match whose pattern has one capture group that did not
participate in the match: `captures.get(0)` is `"TODO"`,
`captures.get(1)` is `None`. -/
def capsNoGroup : Captures := ⟨"TODO".toList, 3, 7, [none]⟩

/-- The description a marker match actually receives: the trimmed first
capture group when the pattern has at least one group and that group
participated; the placeholder when the pattern has at least one group but
the first group did not participate; the trimmed full match when the
pattern has no groups. -/
def descriptionSpec (caps : Captures) : Str :=
  match caps.groups with
  | [] => trim caps.group0
  | some s :: _ => trim s
  | none :: _ => noDescription

/-- The expected file suffix of each output format: `none` for the
console-oriented formats, the fixed extension for the file-oriented ones. -/
def expectedSuffix : OutputFormat → Option Str
  | .Terminal => none
  | .Table => none
  | .Json => some "json".toList
  | .Csv => some "csv".toList
  | .Toml => some "toml".toList
  | .Markdown => some "md".toList

/-- The recognized marker keywords. -/
def recognizedKeywords : List Str :=
  ["TODO".toList, "FIXME".toList, "HACK".toList, "NOTE".toList, "BUG".toList]


/-- The records `Parser::parse` produces for one line: none when no
comment-prefix pattern matches; otherwise one record per matching marker
pattern, in configured pattern order. -/
def lineRecords (P : Parser) (path : Str) (lines : List Str)
    (line_idx : Nat) (line : Str) : List TodoComment :=
  if isCommentLine P line then
    P.patterns.filterMap (fun pt =>
      (pt.1 line).map (fun caps =>
        extractTodo P path line (line_idx + 1) caps lines pt.2))
  else []

/-- A comment-prefix matcher recognizing lines that start with `//`. -/
def slashSlashPat : RegexM := fun l =>
  if l.take 2 = ['/', '/'] then some ⟨['/', '/'], 0, 2, []⟩ else none

/-- A marker matcher recognizing lines containing `TODO`. -/
def todoMarkPat : RegexM := fun l =>
  if strContains l "TODO".toList then some ⟨"TODO".toList, 0, 4, []⟩ else none

/-- A marker matcher recognizing lines containing `FIXME`. -/
def fixmeMarkPat : RegexM := fun l =>
  if strContains l "FIXME".toList then some ⟨"FIXME".toList, 0, 5, []⟩ else none

/-- A concrete parser with a `//` comment prefix and TODO/FIXME markers. -/
def witnessParser : Parser :=
  ⟨[slashSlashPat], [(todoMarkPat, .Todo), (fixmeMarkPat, .Fixme)], []⟩

/-- A declaration matcher whose only capture group text `"foo-bar"` is not
a word (it contains `'-'`), so it never qualifies. -/
def badDeclPat : RegexM := fun _ =>
  some ⟨['m'], 0, 1, [some "foo-bar".toList]⟩

/-- A declaration matcher recognizing exactly the line `fn foo`,
capturing the name `foo`. -/
def fnDeclPat : RegexM := fun l =>
  if l = "fn foo".toList then some ⟨"fn foo".toList, 0, 6, [some "foo".toList]⟩
  else none

/-- A three-line file whose middle line is the declaration `fn foo`. -/
def declLines : List Str :=
  ["x".toList, "fn foo".toList, "// TODO: y".toList]

/-- A walk entry whose path string contains the traversal marker `".."`
while its content holds a valid marker comment. -/
def traversalEntry : WalkEntry :=
  ⟨⟨"src/../etc/passwd.rs".toList, true⟩,
   some "/etc/passwd.rs".toList,
   some "// TODO: secret".toList⟩

/-! ## Helper lemmas -/

/-- Filtering a `range` by a half-open interval yields a `range'`. -/
theorem filter_range_interval (s e : Nat) :
    ∀ n, (List.range n).filter (fun i => decide (s ≤ i ∧ i < e))
      = List.range' s (min e n - s)
  | 0 => by simp
  | n + 1 => by
    rw [List.range_succ, List.filter_append, filter_range_interval s e n]
    by_cases he : n < e
    · by_cases hs : s ≤ n
      · have h1 : min e n = n := by omega
        have h2 : min e (n + 1) = n + 1 := by omega
        have h3 : n + 1 - s = (n - s) + 1 := by omega
        have h4 : s + 1 * (n - s) = n := by omega
        simp [hs, he, h1, h2, h3, List.range'_concat, h4]
      · have h1 : min e n - s = 0 := by omega
        have h2 : min e (n + 1) - s = 0 := by omega
        have h3 : ¬(s ≤ n ∧ n < e) := by omega
        simp [h1, h2, h3]
    · have h1 : min e n = min e (n + 1) := by omega
      have h3 : ¬(s ≤ n ∧ n < e) := by omega
      simp [h1, h3]

/-- In ASCII strings every character is one byte long. -/
theorem byteLen_ascii {s : Str} (h : ∀ c ∈ s, c.utf8Size = 1) :
    byteLen s = s.length := by
  induction s with
  | nil => rfl
  | cons c rest ih =>
    have hc : c.utf8Size = 1 := h c (by simp)
    have : byteLen rest = rest.length := ih (fun d hd => h d (by simp [hd]))
    simp [byteLen] at this ⊢
    omega

/-- A successful byte slice is a `take` of the source string. -/
theorem takeBytes_eq_take {s : Str} :
    ∀ {k p}, takeBytes s k = some p → ∃ m, p = s.take m := by
  induction s with
  | nil =>
    intro k p hp
    cases k with
    | zero => exact ⟨0, by simpa [takeBytes] using hp.symm⟩
    | succ k => simp [takeBytes] at hp
  | cons c rest ih =>
    intro k p hp
    cases k with
    | zero => exact ⟨0, by simpa [takeBytes] using hp.symm⟩
    | succ k =>
      by_cases hc : c.utf8Size ≤ k + 1
      · simp [takeBytes, hc] at hp
        obtain ⟨q, hq, rfl⟩ := hp
        obtain ⟨m, rfl⟩ := ih hq
        exact ⟨m + 1, by simp⟩
      · simp [takeBytes, hc] at hp

/-- One grouping step: the group looked up afterwards gains the new
record exactly when the key is the record's type. -/
theorem findGroup_addTodo (ty : TodoType) (t : TodoComment) :
    ∀ m, findGroup ty (addTodo m t)
      = findGroup ty m ++ (if ty = t.todo_type then [t] else []) := by
  intro m
  induction m with
  | nil =>
    simp only [addTodo, findGroup]
    by_cases h : t.todo_type = ty
    · simp [h]
    · have h' : ¬ ty = t.todo_type := fun hh => h hh.symm
      simp [h, h']
  | cons kv rest ih =>
    obtain ⟨k, v⟩ := kv
    simp only [addTodo]
    by_cases hk : k = t.todo_type
    · rw [if_pos hk]
      simp only [findGroup]
      by_cases hty : k = ty
      · rw [if_pos hty, if_pos hty]
        have h2 : ty = t.todo_type := hty.symm.trans hk
        simp [h2.symm]
      · rw [if_neg hty, if_neg hty]
        have h2 : ¬ ty = t.todo_type := fun hh => hty (hk.trans hh.symm)
        simp [h2]
    · rw [if_neg hk]
      simp only [findGroup]
      by_cases hty : k = ty
      · rw [if_pos hty, if_pos hty]
        have h2 : ¬ ty = t.todo_type := fun hh => hk (hty.trans hh)
        simp [h2]
      · rw [if_neg hty, if_neg hty]
        exact ih

/-- One grouping step adds exactly one record to the total group sizes. -/
theorem sizes_addTodo (t : TodoComment) :
    ∀ m, ((addTodo m t).map (fun g => g.2.length)).sum
      = (m.map (fun g => g.2.length)).sum + 1 := by
  intro m
  induction m with
  | nil => simp [addTodo]
  | cons kv rest ih =>
    obtain ⟨k, v⟩ := kv
    by_cases hk : k = t.todo_type
    · simp [addTodo, hk]; omega
    · simp [addTodo, hk, ih]; omega

/-- One grouping step either reuses an existing key or appends the
record's type as a fresh final key. -/
theorem keys_addTodo (t : TodoComment) :
    ∀ m, ((addTodo m t).map Prod.fst)
      = if t.todo_type ∈ m.map Prod.fst then m.map Prod.fst
        else m.map Prod.fst ++ [t.todo_type] := by
  intro m
  induction m with
  | nil => simp [addTodo]
  | cons kv rest ih =>
    obtain ⟨k, v⟩ := kv
    by_cases hk : k = t.todo_type
    · subst hk; simp [addTodo]
    · have h' : t.todo_type ≠ k := fun hh => hk hh.symm
      by_cases hm : t.todo_type ∈ rest.map Prod.fst <;>
        simp [addTodo, hk, ih, h', hm]

/-- Grouping steps preserve distinctness of the keys. -/
theorem nodup_keys_addTodo (t : TodoComment) (m : List (TodoType × List TodoComment))
    (h : (m.map Prod.fst).Nodup) : ((addTodo m t).map Prod.fst).Nodup := by
  rw [keys_addTodo]
  split
  · exact h
  · next hmem =>
    rw [List.nodup_append]
    refine ⟨h, List.nodup_singleton _, ?_⟩
    intro a ha hb
    simp only [List.mem_singleton] at hb
    subst hb
    exact hmem ha

/-- Folding records into the map extends each group by the records of
that type, in input order. -/
theorem findGroup_foldl (ty : TodoType) :
    ∀ (ts : List TodoComment) (m),
      findGroup ty (ts.foldl addTodo m)
        = findGroup ty m ++ ts.filter (fun t => t.todo_type = ty) := by
  intro ts
  induction ts with
  | nil => intro m; simp
  | cons t ts ih =>
    intro m
    rw [List.foldl_cons, ih, findGroup_addTodo, List.filter_cons]
    by_cases h : t.todo_type = ty
    · simp [h]
    · have h' : ¬ ty = t.todo_type := fun hh => h hh.symm
      simp [h, h']

/-- Folding records into the map grows the total of group sizes by one
per record. -/
theorem sizes_foldl :
    ∀ (ts : List TodoComment) (m),
      ((ts.foldl addTodo m).map (fun g => g.2.length)).sum
        = (m.map (fun g => g.2.length)).sum + ts.length := by
  intro ts
  induction ts with
  | nil => intro m; simp
  | cons t ts ih =>
    intro m
    rw [List.foldl_cons, ih, sizes_addTodo]
    simp; omega

/-- Folding records into the map preserves distinctness of the keys. -/
theorem nodup_keys_foldl :
    ∀ (ts : List TodoComment) (m), (m.map Prod.fst).Nodup →
      (((ts.foldl addTodo m)).map Prod.fst).Nodup := by
  intro ts
  induction ts with
  | nil => intro m h; simpa using h
  | cons t ts ih =>
    intro m h
    exact ih _ (nodup_keys_addTodo t m h)

/-- A byte slice succeeds exactly when the byte index is the byte length
of some character prefix of the string, i.e. falls on a character
boundary (within the string). -/
theorem takeBytes_isSome_iff (s : Str) :
    ∀ k, (takeBytes s k).isSome = true ↔ ∃ m, byteLen (s.take m) = k := by
  induction s with
  | nil =>
    intro k
    cases k with
    | zero => simp [takeBytes, byteLen]
    | succ k => simp [takeBytes, byteLen]
  | cons c rest ih =>
    intro k
    cases k with
    | zero =>
      constructor
      · intro _; exact ⟨0, rfl⟩
      · intro _; rfl
    | succ k =>
      by_cases hsz : c.utf8Size ≤ k + 1
      · rw [show (takeBytes (c :: rest) (k + 1)).isSome
            = (takeBytes rest (k + 1 - c.utf8Size)).isSome from by
          simp [takeBytes, hsz]]
        rw [ih (k + 1 - c.utf8Size)]
        constructor
        · rintro ⟨m, hm⟩
          refine ⟨m + 1, ?_⟩
          simp [byteLen] at hm ⊢
          omega
        · rintro ⟨m, hm⟩
          cases m with
          | zero => simp [byteLen] at hm
          | succ m =>
            refine ⟨m, ?_⟩
            simp [byteLen] at hm ⊢
            omega
      · rw [show (takeBytes (c :: rest) (k + 1)).isSome = false from by
          simp [takeBytes, hsz]]
        constructor
        · intro h; cases h
        · rintro ⟨m, hm⟩
          cases m with
          | zero => simp [byteLen] at hm
          | succ m =>
            exfalso
            simp [byteLen] at hm
            omega

/-- In the truncating branch, `truncate_string` succeeds exactly when the
sliced byte index falls on a character boundary. -/
theorem truncate_isSome_iff_boundary (s : Str) (n : Nat)
    (h : byteLen s > n) :
    (truncate_string s n).isSome = true ↔ ∃ m, byteLen (s.take m) = n - 1 := by
  have hgt : ¬ byteLen s ≤ n := by omega
  simp only [truncate_string, hgt, if_false]
  cases htb : takeBytes s (n - 1) with
  | none =>
    simp only [htb, Option.map_none', Option.isSome_none,
      Bool.false_eq_true, false_iff]
    intro hex
    have hs := (takeBytes_isSome_iff s (n - 1)).mpr hex
    rw [htb] at hs
    cases hs
  | some p =>
    simp only [htb, Option.map_some', Option.isSome_some, true_iff]
    exact (takeBytes_isSome_iff s (n - 1)).mp (by rw [htb]; rfl)

/-! ## Claim theorems -/

/-- **C3.** `Parser::extract_context` returns exactly the lines whose
zero-based indices lie in `[c − w, c + w]` clamped to `[0, total_lines)`,
excluding the current index `c` itself, in ascending index order, each
formatted as its 1-indexed line number followed by the raw line content;
in particular the current line never appears and no out-of-range index is
referenced. -/
theorem extract_context_window (lines : List Str) (c w : Nat) :
    extractContext lines c w =
      ((List.range lines.length).filter
        (fun i => decide (c - w ≤ i ∧ i ≤ c + w ∧ i ≠ c))).map
        (fun i => natToStr (i + 1) ++ ':' :: ' ' :: lines.getD i []) := by
  unfold extractContext
  have hstart : (if c ≥ w then c - w else 0) = c - w := by split <;> omega
  rw [hstart]
  set stop := min (c + w + 1) lines.length with hstop
  have hsplit :
      (List.range lines.length).filter
        (fun i => decide (c - w ≤ i ∧ i ≤ c + w ∧ i ≠ c))
      = ((List.range lines.length).filter
          (fun i => decide (c - w ≤ i ∧ i < stop))).filter
          (fun i => decide (i ≠ c)) := by
    rw [List.filter_filter]
    refine List.filter_congr ?_
    intro x hx
    have hxn : x < lines.length := List.mem_range.mp hx
    rw [Bool.eq_iff_iff]
    simp only [Bool.and_eq_true, decide_eq_true_eq]
    rw [hstop]
    omega
  rw [hsplit, filter_range_interval]
  have hmin : min stop lines.length = stop := by omega
  rw [hmin]

/-- **C9.** `TryFrom<&str> for TodoType` classifies a marker pattern by a
fixed precedence over its uppercased source text: `TODO` before `FIXME`
before `HACK` before `NOTE` before `BUG`; a pattern containing several
keywords gets the first one in this order, and a pattern containing none
is rejected. -/
theorem todo_type_precedence (s : Str) :
    (strContains (s.map Char.toUpper) "TODO".toList = true →
      todoTypeOfStr s = some .Todo)
    ∧ (strContains (s.map Char.toUpper) "TODO".toList = false →
       strContains (s.map Char.toUpper) "FIXME".toList = true →
      todoTypeOfStr s = some .Fixme)
    ∧ (strContains (s.map Char.toUpper) "TODO".toList = false →
       strContains (s.map Char.toUpper) "FIXME".toList = false →
       strContains (s.map Char.toUpper) "HACK".toList = true →
      todoTypeOfStr s = some .Hack)
    ∧ (strContains (s.map Char.toUpper) "TODO".toList = false →
       strContains (s.map Char.toUpper) "FIXME".toList = false →
       strContains (s.map Char.toUpper) "HACK".toList = false →
       strContains (s.map Char.toUpper) "NOTE".toList = true →
      todoTypeOfStr s = some .Note)
    ∧ (strContains (s.map Char.toUpper) "TODO".toList = false →
       strContains (s.map Char.toUpper) "FIXME".toList = false →
       strContains (s.map Char.toUpper) "HACK".toList = false →
       strContains (s.map Char.toUpper) "NOTE".toList = false →
       strContains (s.map Char.toUpper) "BUG".toList = true →
      todoTypeOfStr s = some .Bug) := by
  refine ⟨?_, ?_, ?_, ?_, ?_⟩ <;> intros <;> simp_all [todoTypeOfStr]

/-- Witness for C9: a pattern containing both `FIXME` and `TODO` is
classified `Todo`; one containing only `BUG` is classified `Bug`. -/
theorem todo_type_precedence_witness :
    todoTypeOfStr "(?i)\\bFIXME|TODO\\b".toList = some .Todo
    ∧ todoTypeOfStr "(?i)\\bBUG:\\s*(.*)".toList = some .Bug :=
  ⟨(todo_type_precedence _).1 (by decide),
   (todo_type_precedence _).2.2.2.2 (by decide) (by decide) (by decide)
     (by decide) (by decide)⟩

/-- **C2 counterexample.** The claim says the description equals the
placeholder iff both the first capture group and the full match are empty
after trimming.  On a match whose first capture group did not participate
the code yields the placeholder although the full match `"TODO"` is
non-empty after trimming. -/
theorem description_placeholder_counterexample :
    (extractTodo emptyParser "test.rs".toList "// TODO".toList 1 capsNoGroup
        ["// TODO".toList] .Todo).description = noDescription
    ∧ trim capsNoGroup.group0 ≠ [] := by
  constructor
  · rfl
  · decide

/-- **C2 amended.** The record's description equals the trimmed first
capture group when the pattern has one and it participated in the match;
it equals the placeholder exactly when the pattern has at least one
capture group whose first group did not participate (an empty-after-trim
participating group yields an empty description, not the placeholder);
with no capture groups it is the trimmed full match. -/
theorem description_amended (P : Parser) (path line : Str) (n : Nat)
    (caps : Captures) (all_lines : List Str) (ty : TodoType) :
    (extractTodo P path line n caps all_lines ty).description
      = descriptionSpec caps := by
  show descriptionOf caps = descriptionSpec caps
  unfold descriptionOf descriptionSpec capLen capGet
  match caps with
  | ⟨g0, a, b, []⟩ => simp
  | ⟨g0, a, b, some s :: gs⟩ => simp
  | ⟨g0, a, b, none :: gs⟩ => simp

/-- **C10 counterexample.** The claim says `truncate_string` returns
without panicking for every string and width.  On `"éa"` (a two-byte
character followed by a one-byte one) with width 2, the byte slice
`&s[0..1]` falls inside the first character and panics (modelled as
`none`). -/
theorem truncate_string_counterexample :
    truncate_string ['é', 'a'] 2 = none := by decide

/-- **C10 amended.** `truncate_string` returns the string unchanged when
its byte length is at most the width; when it exceeds the width, the
slice succeeds — returning a character prefix of the input followed by
the ellipsis character — if and only if the byte index
`max_len.saturating_sub(1)` falls on a character boundary (is the byte
length of some character prefix), which holds in particular for every
ASCII string; when that index falls inside a multi-byte character the
byte slice panics (modelled as `none`). -/
theorem truncate_string_amended (s : Str) (n : Nat) :
    (byteLen s ≤ n → truncate_string s n = some s)
    ∧ (byteLen s > n →
        ((truncate_string s n).isSome = true
          ↔ ∃ m, byteLen (s.take m) = n - 1))
    ∧ (∀ r, truncate_string s n = some r →
        r = s ∨ ∃ m, r = s.take m ++ ['…'])
    ∧ ((∀ c ∈ s, c.utf8Size = 1) → (truncate_string s n).isSome = true) := by
  refine ⟨?_, ?_, ?_, ?_⟩
  · intro h; simp [truncate_string, h]
  · exact truncate_isSome_iff_boundary s n
  · intro r hr
    unfold truncate_string at hr
    by_cases h : byteLen s ≤ n
    · simp [h] at hr; exact Or.inl hr.symm
    · simp [h] at hr
      obtain ⟨p, hp, rfl⟩ := hr
      obtain ⟨m, rfl⟩ := takeBytes_eq_take hp
      exact Or.inr ⟨m, rfl⟩
  · intro hascii
    by_cases h : byteLen s ≤ n
    · simp [truncate_string, h]
    · have hgt : byteLen s > n := by omega
      have hlen : byteLen s = s.length := byteLen_ascii hascii
      refine (truncate_isSome_iff_boundary s n hgt).mpr ⟨n - 1, ?_⟩
      have htake : ∀ c ∈ s.take (n - 1), c.utf8Size = 1 :=
        fun c hc => hascii c (List.mem_of_mem_take hc)
      rw [byteLen_ascii htake, List.length_take]
      omega

/-- Witness for C10 amended: a short string is returned unchanged; a
non-ASCII string whose slice index falls on a character boundary
(`"ééx"` with width 3, index 2 after the first two-byte character) is
truncated without panic; an ASCII string is always truncated without
panic. -/
theorem truncate_string_amended_witness :
    truncate_string "ab".toList 5 = some "ab".toList
    ∧ (truncate_string "ééx".toList 3).isSome = true
    ∧ (truncate_string "hello".toList 3).isSome = true :=
  ⟨(truncate_string_amended "ab".toList 5).1 (by decide),
   ((truncate_string_amended "ééx".toList 3).2.1 (by decide)).mpr
     ⟨1, by decide⟩,
   (truncate_string_amended "hello".toList 3).2.2.2 (by decide)⟩

/-- **C8.** `Output::group_todos_by_type` produces a mapping whose keys
are distinct, in which the group of every marker type consists exactly of
the input records of that type in their input order (so every record
appears exactly once, under its own type), and whose group sizes sum to
the length of the input list. -/
theorem group_todos_partition (todos : List TodoComment) :
    ((group_todos_by_type todos).map Prod.fst).Nodup
    ∧ (∀ ty, findGroup ty (group_todos_by_type todos)
        = todos.filter (fun t => t.todo_type = ty))
    ∧ ((group_todos_by_type todos).map (fun g => g.2.length)).sum
        = todos.length := by
  refine ⟨?_, ?_, ?_⟩
  · exact nodup_keys_foldl todos [] (by simp)
  · intro ty
    have h := findGroup_foldl ty todos []
    simpa [group_todos_by_type, findGroup] using h
  · have h := sizes_foldl todos []
    simpa [group_todos_by_type] using h

/-- `validate_file_extension` succeeds exactly on the expected extension,
and any failure is an invalid-output-path error. -/
theorem validate_cases (p expected : Str) :
    (pathExtension p = some expected
      ∧ validate_file_extension p expected = .ok ())
    ∨ (pathExtension p ≠ some expected
      ∧ ∃ msg, validate_file_extension p expected
          = .error (.InvalidOutputPath msg)) := by
  unfold validate_file_extension
  cases hpe : pathExtension p with
  | none => exact Or.inr (by simp)
  | some ext =>
    by_cases he : ext = expected
    · subst he; exact Or.inl (by simp)
    · refine Or.inr ⟨by simpa using he, ?_⟩
      simp [he]

/-- **C6.** `Output::new` yields an invalid-output-path error exactly
when a console-oriented format (terminal, table) is given an output path,
or a file-oriented format (json, csv, toml, markdown) is given no path or
a path whose extension is not that format's fixed expected suffix; any
such violation is rejected before a formatter/writer pair is produced. -/
theorem output_new_validation (fmt : OutputFormat) (output_path : Option Str) :
    (∃ msg, outputNew fmt output_path = .error (.InvalidOutputPath msg))
      ↔ ((fmt = .Terminal ∨ fmt = .Table) ∧ output_path ≠ none)
        ∨ (∃ sfx, expectedSuffix fmt = some sfx
            ∧ (output_path = none
               ∨ ∃ p, output_path = some p ∧ pathExtension p ≠ some sfx)) := by
  cases fmt with
  | Terminal =>
    cases output_path with
    | none => simp [outputNew, expectedSuffix]
    | some p => simp [outputNew, expectedSuffix]
  | Table =>
    cases output_path with
    | none => simp [outputNew, expectedSuffix]
    | some p => simp [outputNew, expectedSuffix]
  | Json =>
    cases output_path with
    | none => simp [outputNew, expectedSuffix]
    | some p =>
      simp only [outputNew, expectedSuffix]
      rcases validate_cases p "json".toList with ⟨hok, heq⟩ | ⟨hne, msg, herr⟩
      · rw [heq]; simp [hok]
      · rw [herr]; simp
        exact fun hh => hne (by simpa using hh)
  | Csv =>
    cases output_path with
    | none => simp [outputNew, expectedSuffix]
    | some p =>
      simp only [outputNew, expectedSuffix]
      rcases validate_cases p "csv".toList with ⟨hok, heq⟩ | ⟨hne, msg, herr⟩
      · rw [heq]; simp [hok]
      · rw [herr]; simp
        exact fun hh => hne (by simpa using hh)
  | Toml =>
    cases output_path with
    | none => simp [outputNew, expectedSuffix]
    | some p =>
      simp only [outputNew, expectedSuffix]
      rcases validate_cases p "toml".toList with ⟨hok, heq⟩ | ⟨hne, msg, herr⟩
      · rw [heq]; simp [hok]
      · rw [herr]; simp
        exact fun hh => hne (by simpa using hh)
  | Markdown =>
    cases output_path with
    | none => simp [outputNew, expectedSuffix]
    | some p =>
      simp only [outputNew, expectedSuffix]
      rcases validate_cases p "md".toList with ⟨hok, heq⟩ | ⟨hne, msg, herr⟩
      · rw [heq]; simp [hok]
      · rw [herr]; simp
        exact fun hh => hne (by simpa using hh)

/-- `compilePatterns` fails exactly when some pattern fails to compile. -/
theorem compilePatterns_error (compile : Str → Option RegexM) :
    ∀ ps, (∃ e, compilePatterns compile ps = .error e)
      ↔ ∃ p ∈ ps, compile p = none := by
  intro ps
  induction ps with
  | nil => simp [compilePatterns]
  | cons p ps ih =>
    cases hc : compile p with
    | none => simp [compilePatterns, hc]
    | some r =>
      cases hr : compilePatterns compile ps with
      | error e =>
        simp only [compilePatterns, hc, hr]
        constructor
        · intro _
          obtain ⟨q, hq, hqc⟩ := ih.mp ⟨e, hr⟩
          exact ⟨q, by simp [hq], hqc⟩
        · intro _; exact ⟨e, rfl⟩
      | ok rs =>
        simp only [compilePatterns, hc, hr]
        constructor
        · rintro ⟨e, he⟩; cases he
        · rintro ⟨q, hq, hqc⟩
          rcases List.mem_cons.mp hq with rfl | hq'
          · rw [hqc] at hc; cases hc
          · obtain ⟨e, he⟩ := ih.mpr ⟨q, hq', hqc⟩
            rw [he] at hr; cases hr

/-- `compileTodoPatterns` fails exactly when some marker pattern fails to
compile or carries no recognized keyword. -/
theorem compileTodoPatterns_error (compile : Str → Option RegexM) :
    ∀ ps, (∃ e, compileTodoPatterns compile ps = .error e)
      ↔ ∃ p ∈ ps, compile p = none ∨ todoTypeOfStr p = none := by
  intro ps
  induction ps with
  | nil => simp [compileTodoPatterns]
  | cons p ps ih =>
    cases hc : compile p with
    | none =>
      simp only [compileTodoPatterns, hc]
      constructor
      · intro _; exact ⟨p, by simp, Or.inl hc⟩
      · intro _; exact ⟨_, rfl⟩
    | some r =>
      cases ht : todoTypeOfStr p with
      | none =>
        simp only [compileTodoPatterns, hc, ht]
        constructor
        · intro _; exact ⟨p, by simp, Or.inr ht⟩
        · intro _; exact ⟨_, rfl⟩
      | some ty =>
        cases hr : compileTodoPatterns compile ps with
        | error e =>
          simp only [compileTodoPatterns, hc, ht, hr]
          constructor
          · intro _
            obtain ⟨q, hq, hqc⟩ := ih.mp ⟨e, hr⟩
            exact ⟨q, by simp [hq], hqc⟩
          · intro _; exact ⟨e, rfl⟩
        | ok rs =>
          simp only [compileTodoPatterns, hc, ht, hr]
          constructor
          · rintro ⟨e, he⟩; cases he
          · rintro ⟨q, hq, hqc⟩
            rcases List.mem_cons.mp hq with rfl | hq'
            · rcases hqc with hqc | hqc
              · rw [hqc] at hc; cases hc
              · rw [hqc] at ht; cases ht
            · obtain ⟨e, he⟩ := ih.mpr ⟨q, hq', hqc⟩
              rw [he] at hr; cases hr

/-- A pattern is rejected by the type classifier exactly when its
uppercased source text contains none of the recognized keywords. -/
theorem todoTypeOfStr_none (p : Str) :
    todoTypeOfStr p = none
      ↔ ∀ kw ∈ recognizedKeywords,
          strContains (p.map Char.toUpper) kw = false := by
  simp only [todoTypeOfStr, recognizedKeywords]
  split_ifs with h1 h2 h3 h4 h5 <;> simp_all

/-- **C7.** `Parser::new` returns an error — yielding no instance — if
and only if some configured comment-prefix, marker, or declaration
pattern fails to compile, or some marker pattern's source text contains
(case-insensitively) none of the recognized keywords TODO, FIXME, HACK,
NOTE, BUG. -/
theorem parser_new_errors (compile : Str → Option RegexM)
    (config : ParsingConfig) :
    (∃ e, parserNew compile config = .error e)
      ↔ (∃ p ∈ config.comment_prefixes, compile p = none)
        ∨ (∃ p ∈ config.todo_patterns, compile p = none
            ∨ ∀ kw ∈ recognizedKeywords,
                strContains (p.map Char.toUpper) kw = false)
        ∨ (∃ p ∈ config.function_patterns, compile p = none) := by
  constructor
  · rintro ⟨e, he⟩
    unfold parserNew at he
    rcases h1 : compilePatterns compile config.comment_prefixes with e1 | r1
    · exact Or.inl ((compilePatterns_error compile _).mp ⟨e1, h1⟩)
    · rw [h1] at he
      rcases h2 : compileTodoPatterns compile config.todo_patterns with e2 | r2
      · obtain ⟨q, hq, hqc⟩ := (compileTodoPatterns_error compile _).mp ⟨e2, h2⟩
        exact Or.inr (Or.inl ⟨q, hq, hqc.imp id (todoTypeOfStr_none q).mp⟩)
      · rw [h2] at he
        rcases h3 : compilePatterns compile config.function_patterns with e3 | r3
        · exact Or.inr (Or.inr ((compilePatterns_error compile _).mp ⟨e3, h3⟩))
        · rw [h3] at he; cases he
  · intro h
    unfold parserNew
    rcases h1 : compilePatterns compile config.comment_prefixes with e1 | r1
    · exact ⟨e1, rfl⟩
    · rcases h2 : compileTodoPatterns compile config.todo_patterns with e2 | r2
      · exact ⟨e2, rfl⟩
      · rcases h3 : compilePatterns compile config.function_patterns with e3 | r3
        · exact ⟨e3, rfl⟩
        · exfalso
          rcases h with h | h | h
          · obtain ⟨e, he⟩ := (compilePatterns_error compile _).mpr h
            rw [he] at h1; cases h1
          · obtain ⟨q, hq, hqc⟩ := h
            obtain ⟨e, he⟩ := (compileTodoPatterns_error compile _).mpr
              ⟨q, hq, hqc.imp id (todoTypeOfStr_none q).mpr⟩
            rw [he] at h2; cases h2
          · obtain ⟨e, he⟩ := (compilePatterns_error compile _).mpr h
            rw [he] at h3; cases h3

/-- Unfolding `find_function_context` at line 0. -/
theorem findFnCtxAux_zero_eq (patterns : List RegexM) (lines : List Str) :
    findFunctionContext patterns lines 0
      = (patternLineSearch patterns (lines.getD 0 [])).map
          (fun name => name ++ ':' :: natToStr 1) := rfl

/-- Unfolding `find_function_context` one backward step. -/
theorem findFnCtxAux_succ_eq (patterns : List RegexM) (lines : List Str)
    (c : Nat) :
    findFunctionContext patterns lines (c + 1)
      = match patternLineSearch patterns (lines.getD (c + 1) []) with
        | some name => some (name ++ ':' :: natToStr (c + 2))
        | none => findFunctionContext patterns lines c := by
  show (match (patternLineSearch patterns (lines.getD (c + 1) [])).map
      (fun name => name ++ ':' :: natToStr (c + 2)) with
    | some r => some r
    | none => findFnCtxAux patterns lines c) = _
  cases patternLineSearch patterns (lines.getD (c + 1) []) <;> rfl

/-- Folding an accumulate-append body over a list collects the per-element
contributions in order. -/
theorem foldl_collect {α β : Type _} (f : α → List β) :
    ∀ (l : List α) (acc : List β),
      l.foldl (fun acc a => acc ++ f a) acc = acc ++ l.flatMap f := by
  intro l
  induction l with
  | nil => intro acc; simp
  | cons a l ih => intro acc; simp [ih]

/-- The length of a `filterMap` that maps over a partial match equals the
number of matching elements. -/
theorem length_filterMap_matches {α β γ : Type _} (m : α → Option β)
    (g : α → β → γ) :
    ∀ l : List α,
      (l.filterMap (fun a => (m a).map (g a))).length
        = (l.filter (fun a => (m a).isSome)).length := by
  intro l
  induction l with
  | nil => rfl
  | cons a l ih =>
    cases hm : m a <;>
      simp [List.filterMap_cons, List.filter_cons, hm, ih]

/-- **C5.** A path is eligible for scanning iff it is a regular file, its
path string does not contain the traversal marker `".."`, and its
extension exactly matches an allow-list entry; the scan is the
concatenation of per-entry contributions, and an ineligible entry
contributes zero records — its content (and hence any marker in it) is
never consulted. -/
theorem should_file_be_scanned_spec (file_extensions : List Str)
    (P : Parser) (entries : List WalkEntry) (p : SPath) (e : WalkEntry) :
    (should_file_be_scanned file_extensions p = true ↔
      p.is_file = true
      ∧ strContains p.pathStr ['.', '.'] = false
      ∧ ∃ ext, pathExtension p.pathStr = some ext ∧ ext ∈ file_extensions)
    ∧ scanModel P file_extensions entries
        = entries.flatMap (entryRecords P file_extensions)
    ∧ (should_file_be_scanned file_extensions e.path = false →
        entryRecords P file_extensions e = []) := by
  refine ⟨?_, ?_, ?_⟩
  · unfold should_file_be_scanned
    cases hf : p.is_file with
    | false => simp [hf]
    | true =>
      cases hdd : strContains p.pathStr ['.', '.'] with
      | true => simp [hdd]
      | false =>
        cases hpe : pathExtension p.pathStr with
        | none => simp [hpe]
        | some ext =>
          simp only [hdd, hpe, Bool.not_true, Bool.false_eq_true, if_false]
          simp only [true_and, eq_self_iff_true, Option.some.injEq]
          constructor
          · intro h; exact ⟨ext, rfl, List.elem_iff.mp h⟩
          · rintro ⟨ext', rfl, hmem⟩; exact List.elem_iff.mpr hmem
  · unfold scanModel
    have hb : (fun (todos : List TodoComment) (e : WalkEntry) =>
        if !should_file_be_scanned file_extensions e.path then todos
        else
          match scanFileModel P e with
          | some ts => todos ++ ts
          | none => todos)
      = fun todos e => todos ++ entryRecords P file_extensions e := by
      funext todos e
      unfold entryRecords
      cases hs : should_file_be_scanned file_extensions e.path
      · simp [hs]
      · cases hm : scanFileModel P e <;> simp [hs, hm]
    rw [hb, foldl_collect]
    simp
  · intro h
    unfold entryRecords
    simp [h]

/-- Witness for C5: a path containing the traversal marker is ineligible
and contributes zero records although its content holds a valid marker. -/
theorem should_file_be_scanned_spec_witness :
    should_file_be_scanned ["rs".toList] traversalEntry.path = false
    ∧ entryRecords emptyParser ["rs".toList] traversalEntry = [] :=
  ⟨by decide,
   (should_file_be_scanned_spec ["rs".toList] emptyParser [] ⟨[], false⟩
      traversalEntry).2.2 (by decide)⟩

/-- **C1.** `Parser::parse` is the concatenation over all lines of the
per-line records; a line matching no comment-prefix pattern yields no
records regardless of marker content, and a line matching some
comment-prefix pattern yields exactly one record per matching marker
pattern, in configured pattern order. -/
theorem parse_line_records (P : Parser) (path content : Str) :
    parse P path content
      = (rustLines content).enum.flatMap
          (fun il => lineRecords P path (rustLines content) il.1 il.2)
    ∧ (∀ (lines : List Str) (idx : Nat) (line : Str),
        isCommentLine P line = false → lineRecords P path lines idx line = [])
    ∧ (∀ (lines : List Str) (idx : Nat) (line : Str),
        isCommentLine P line = true →
          (lineRecords P path lines idx line).length
            = (P.patterns.filter (fun pt => (pt.1 line).isSome)).length) := by
  refine ⟨?_, ?_, ?_⟩
  · simp only [parse]
    have hinner : ∀ (idx : Nat) (line : Str) (acc : List TodoComment),
        P.patterns.foldl
          (fun todos pt =>
            match pt.1 line with
            | some caps =>
              todos ++ [extractTodo P path line (idx + 1) caps
                (rustLines content) pt.2]
            | none => todos) acc
        = acc ++ P.patterns.filterMap (fun pt =>
            (pt.1 line).map (fun caps =>
              extractTodo P path line (idx + 1) caps (rustLines content) pt.2)) := by
      intro idx line acc
      induction P.patterns generalizing acc with
      | nil => simp
      | cons pt pats ih =>
        cases hm : pt.1 line <;>
          simp [List.foldl_cons, hm, ih, List.filterMap_cons]
    have hb : (fun (todos : List TodoComment) (il : Nat × Str) =>
        if !isCommentLine P il.2 then todos
        else
          P.patterns.foldl
            (fun todos pt =>
              match pt.1 il.2 with
              | some caps =>
                todos ++ [extractTodo P path il.2 (il.1 + 1) caps
                  (rustLines content) pt.2]
              | none => todos) todos)
      = fun todos il =>
          todos ++ lineRecords P path (rustLines content) il.1 il.2 := by
      funext todos il
      unfold lineRecords
      cases hc : isCommentLine P il.2
      · simp [hc]
      · simp only [hc, Bool.not_true, Bool.false_eq_true, if_false]
        exact hinner il.1 il.2 todos
    rw [hb, foldl_collect]
    simp
  · intro lines idx line h
    simp [lineRecords, h]
  · intro lines idx line h
    simp only [lineRecords, h, if_true]
    exact length_filterMap_matches (fun pt => pt.1 line)
      (fun pt caps => extractTodo P path line (idx + 1) caps lines pt.2)
      P.patterns

/-- Witness for C1: with a `//` comment prefix and TODO/FIXME markers, a
non-comment line containing `TODO` yields no records, and a comment line
matching both markers yields exactly as many records as matching
patterns. -/
theorem parse_line_records_witness :
    lineRecords witnessParser "t.rs".toList [] 0 "let t = 4; TODO".toList = []
    ∧ (lineRecords witnessParser "t.rs".toList [] 0 "// TODO FIXME".toList).length
        = (witnessParser.patterns.filter
            (fun pt => (pt.1 "// TODO FIXME".toList).isSome)).length :=
  ⟨(parse_line_records witnessParser "t.rs".toList []).2.1 [] 0 _ (by decide),
   (parse_line_records witnessParser "t.rs".toList []).2.2 [] 0 _ (by decide)⟩

/-- **C4 counterexample.** The claim says the declaration context is none
only when no declaration pattern matches any line at or before the
current one.  With a pattern that matches line 0 but whose only captured
group `"foo-bar"` is not a word, the finder returns none although a
declaration pattern matched. -/
theorem find_function_context_counterexample :
    findFunctionContext [badDeclPat] [['x']] 0 = none
    ∧ (badDeclPat ['x']).isSome = true := by
  constructor
  · rfl
  · rfl

/-- **C4 amended.** The declaration context is none exactly when no line
at or before the current one has a declaration-pattern match yielding a
qualifying captured group (non-empty, all alphanumeric-or-underscore,
patterns tried in order, groups in index order); otherwise it is
`"name:line"` (1-indexed) for the nearest such line. -/
theorem find_function_context_amended (patterns : List RegexM)
    (lines : List Str) (c : Nat) :
    (findFunctionContext patterns lines c = none ↔
      ∀ i, i ≤ c → patternLineSearch patterns (lines.getD i []) = none)
    ∧ (∀ i, i ≤ c →
        patternLineSearch patterns (lines.getD i []) ≠ none →
        (∀ j, i < j → j ≤ c →
          patternLineSearch patterns (lines.getD j []) = none) →
        findFunctionContext patterns lines c
          = (patternLineSearch patterns (lines.getD i [])).map
              (fun name => name ++ ':' :: natToStr (i + 1))) := by
  induction c with
  | zero =>
    constructor
    · rw [findFnCtxAux_zero_eq patterns lines]
      constructor
      · intro h i hi
        have h0 : i = 0 := by omega
        subst h0
        exact Option.map_eq_none'.mp h
      · intro h
        rw [h 0 le_rfl]
        rfl
    · intro i hi hne hnear
      have h0 : i = 0 := by omega
      subst h0
      exact findFnCtxAux_zero_eq patterns lines
  | succ c ih =>
    have hstep := findFnCtxAux_succ_eq patterns lines c
    constructor
    · rw [hstep]
      cases hp : patternLineSearch patterns (lines.getD (c + 1) []) with
      | some name =>
        constructor
        · intro h; exact Option.noConfusion h
        · intro h
          rw [h (c + 1) le_rfl] at hp
          exact Option.noConfusion hp
      | none =>
        show findFunctionContext patterns lines c = none ↔ _
        rw [ih.1]
        constructor
        · intro h i hi
          rcases Nat.lt_or_ge i (c + 1) with hlt | hge
          · exact h i (by omega)
          · have hi1 : i = c + 1 := by omega
            subst hi1
            exact hp
        · intro h i hi
          exact h i (by omega)
    · intro i hi hne hnear
      rw [hstep]
      rcases Nat.lt_or_ge i (c + 1) with hlt | hge
      · have hc1 : patternLineSearch patterns (lines.getD (c + 1) []) = none :=
          hnear (c + 1) (by omega) le_rfl
        rw [hc1]
        show findFunctionContext patterns lines c = _
        exact ih.2 i (by omega) hne (fun j hj hj' => hnear j hj (by omega))
      · have hi1 : i = c + 1 := by omega
        subst hi1
        cases hp : patternLineSearch patterns (lines.getD (c + 1) []) with
        | some name => rfl
        | none => exact absurd hp hne

/-- Witness for C4 amended: with a declaration `fn foo` on (0-indexed)
line 1 of a three-line file and the marker on line 2, the declaration
context is `foo:2`. -/
theorem find_function_context_amended_witness :
    findFunctionContext [fnDeclPat] declLines 2 = some ("foo:2".toList) := by
  have h := (find_function_context_amended [fnDeclPat] declLines 2).2 1
    (by decide) (by decide)
    (fun j hj hj' => by
      have : j = 2 := by omega
      subst this; decide)
  rw [h]
  decide

end Towl
